import Mathlib

/-!
Verification of the fmeval transform / aggregation / serialization pipeline.

This file shallowly embeds the functions of
`src/fmeval/eval_algorithms/util.py` and
`src/fmeval/transforms/semantic_robustness_metrics.py` and proves the
specified properties about them.  Python dictionaries are embedded as
association lists (preserving insertion order, as Python dicts do);
machine floats are embedded as rationals; fallible code returns
`Option`/`Except`.  Modules of the repository that are not among the
sources at hand (`fmeval/constants.py`, `fmeval/util.py`,
`fmeval/transforms/common.py`, and the external dataset engine) are
modelled from the specification; each such definition carries a doc
comment saying so.
-/

namespace Fmeval

/-- A Python scalar value as it occurs in a dataset row:
`Union[str, float, int]` (floats embedded as rationals). -/
inductive PyVal where
  | s (v : String)
  | i (v : Int)
  | f (v : ℚ)
deriving DecidableEq, Repr

/-- `isinstance(value, float) or isinstance(value, int)`: the numeric
content of a `PyVal`, when it has one. -/
def PyVal.asNum : PyVal → Option ℚ
  | .s _ => none
  | .i v => some (v : ℚ)
  | .f v => some v

/-- Modelled from the spec: `constants.DATASET_COLUMNS`
(`fmeval/constants.py` is not among the sources) is the fixed
recognized-column allow-list, in its fixed canonical order; the spec and
the unit tests name the columns listed here.  The theorems below do not
depend on the particular entries, only on `"model_input"` being
recognized and `"aux"` not. -/
def DATASET_COLUMNS : List String :=
  ["model_input", "prompt", "model_output", "model_log_probability",
   "target_output", "category"]

/-- `EvalScore`: a named numeric metric value. -/
structure EvalScore where
  name : String
  value : ℚ
deriving DecidableEq, Repr

/-- `CategoryScore`: the scores of one category value. -/
structure CategoryScore where
  name : String
  scores : List EvalScore
deriving DecidableEq, Repr

/-- `EvalOutputRecord`: scores plus the recognized non-score columns of
one row (an insertion-ordered mapping, embedded as an association
list). -/
structure EvalOutputRecord where
  scores : List EvalScore
  dataset_columns : List (String × PyVal)
deriving DecidableEq, Repr

/-- The loop body of `EvalOutputRecord.from_row`: iterates over the
row's items, sending names in `score_names` to `EvalScore` entries
(failing, as the source's `assert` does, on a non-numeric score value)
and keeping other names as `dataset_columns` entries exactly when they
are in the `DATASET_COLUMNS` allow-list. -/
def fromRowAux (score_names : List String) :
    List (String × PyVal) → Option (List (String × PyVal) × List EvalScore)
  | [] => some ([], [])
  | (column_name, value) :: rest => do
    let (cols, scs) ← fromRowAux score_names rest
    if column_name ∈ score_names then
      let v ← value.asNum
      pure (cols, ⟨column_name, v⟩ :: scs)
    else
      if column_name ∈ DATASET_COLUMNS then
        pure ((column_name, value) :: cols, scs)
      else
        pure (cols, scs)

/-- `EvalOutputRecord.from_row(row, score_names)` from
`eval_algorithms/util.py`. -/
def EvalOutputRecord.from_row (row : List (String × PyVal))
    (score_names : List String) : Option EvalOutputRecord :=
  (fromRowAux score_names row).map fun p => ⟨p.2, p.1⟩

/-- A JSON value of the serialized record: either a plain dataset-column
value or the `"scores"` array. -/
inductive JVal where
  | prim (v : PyVal)
  | arr (scores : List EvalScore)
deriving DecidableEq, Repr

/-- `EvalOutputRecord._to_dict` from `eval_algorithms/util.py`: the
ordered JSON object, built by walking `DATASET_COLUMNS` in its fixed
order, keeping the columns present in `dataset_columns`, and then
appending the `"scores"` key. -/
def EvalOutputRecord.toDict (r : EvalOutputRecord) : List (String × JVal) :=
  (DATASET_COLUMNS.filterMap fun c =>
    (r.dataset_columns.lookup c).map fun v => (c, JVal.prim v))
  ++ [("scores", JVal.arr r.scores)]

/-- Python dict assignment `record[k] = v`: overwrites in place when the
key is present, appends at the end otherwise. -/
def setKey {α : Type} (record : List (String × α)) (k : String) (v : α) :
    List (String × α) :=
  if (record.map Prod.fst).contains k then
    record.map fun kv => if kv.1 = k then (k, v) else kv
  else record ++ [(k, v)]

/-- The `WER` transform configuration: prediction keys, reference keys,
output key. -/
structure WERTransform where
  prediction_keys : List String
  reference_keys : List String
  output_key : String
deriving DecidableEq, Repr

/-- The error message built by `WER.__init__` for mismatched key-list
lengths (the source builds it from the two lengths with f-strings). -/
def werLengthMessage (np nr : Nat) : String :=
  "prediction_keys and reference_keys should have the same number of elements. "
    ++ "prediction_keys has " ++ Nat.repr np ++ " elements while reference_keys has "
    ++ Nat.repr nr ++ " elements."

/-- Modelled from the spec: `fmeval.util.require(condition, msg)`
(`fmeval/util.py` is not among the sources) raises a user-facing
`ConfigError` (`EvalAlgorithmClientError`) carrying `msg` when the
condition is false, and does nothing otherwise. -/
def require (condition : Bool) (msg : String) : Except String Unit :=
  if condition then Except.ok () else Except.error msg

/-- `WER.__init__` from `transforms/semantic_robustness_metrics.py`:
validates that the two key lists have equal lengths. -/
def WER.init (prediction_keys reference_keys : List String) (output_key : String) :
    Except String WERTransform := do
  require (decide (prediction_keys.length = reference_keys.length))
    (werLengthMessage prediction_keys.length reference_keys.length)
  pure ⟨prediction_keys, reference_keys, output_key⟩

/-- `WER.__call__` from `transforms/semantic_robustness_metrics.py`,
parameterized by the external word-error-rate metric `compute`
(`hf_evaluate.load("wer").compute`).  Besides the updated record it
returns the argument pair of the (single) external call, so that the
theorems can speak about how the external metric was invoked.  Returns
`none` when a declared key is missing from the record (the
`validate_call` wrapper's `MissingKey` failure). -/
def WER.call {α : Type} (w : WERTransform) (compute : List α → List α → α)
    (record : List (String × α)) :
    Option (List (String × α) × (List α × List α)) := do
  let predictions ← w.prediction_keys.mapM record.lookup
  let references ← w.reference_keys.mapM record.lookup
  let wer_metric := compute predictions references
  pure (setKey record w.output_key wer_metric, (predictions, references))

/-- Modelled from the spec: the `Mean` transform of
`fmeval.transforms.common` (not among the sources): given N input keys
and one output key, the output is `sum(values)/N`; it requires N >= 1
and fails (`ConfigError`) when N = 0.  Missing input keys fail as the
`validate_call` wrapper does. -/
def Mean.call (input_keys : List String) (output_key : String)
    (record : List (String × ℚ)) : Option (List (String × ℚ)) := do
  if input_keys.isEmpty then none
  else
    let values ← input_keys.mapM record.lookup
    pure (setKey record output_key (values.sum / input_keys.length))

/-- `BertScoreDissimilarity.__call__` from
`transforms/semantic_robustness_metrics.py`: run `Mean` on the
BERTScore keys, then overwrite the output key with `1 -` the mean just
stored there. -/
def BertScoreDissimilarity.call (bert_score_keys : List String) (output_key : String)
    (record : List (String × ℚ)) : Option (List (String × ℚ)) := do
  let record2 ← Mean.call bert_score_keys output_key record
  let m ← record2.lookup output_key
  pure (setKey record2 output_key (1 - m))

/-- `generate_mean_delta_score` from `eval_algorithms/util.py`:
`sum([abs(original - perturbed_i)]) / len(perturbed)`; the division
fails (`ZeroDivisionError`) on an empty list. -/
def generate_mean_delta_score (original_score : EvalScore)
    (perturbed_input_scores : List EvalScore) : Option ℚ :=
  if perturbed_input_scores.length = 0 then none
  else some
    ((perturbed_input_scores.map fun reference_score =>
        |original_score.value - reference_score.value|).sum
      / perturbed_input_scores.length)

/-- Modelled from the spec: `constants.NUM_ROWS_DETERMINISTIC`
(`fmeval/constants.py` is not among the sources), the fixed number of
dataset rows sampled by `verify_model_determinism`; the claims do not
depend on its concrete value. -/
def NUM_ROWS_DETERMINISTIC : Nat := 5

/-- The loop of `verify_model_determinism` over the (already `limit`ed)
rows.  The model is a stateful oracle `predict : σ → String → α × σ`
(so that repeated calls may disagree); besides the result, the function
returns the trace of prompts passed to `predict`, in call order, so that
the theorems can speak about which model calls were made.  Fails
(`KeyError`) when a row lacks the prompt column. -/
def verifyRowsAux {σ α : Type} [DecidableEq α] (predict : σ → String → α × σ)
    (prompt_column_name : String) :
    σ → List (List (String × String)) → Option (Bool × List String)
  | _, [] => some (true, [])
  | s, row :: rest => do
    let original_prompt ← row.lookup prompt_column_name
    let r1 := predict s original_prompt
    let r2 := predict r1.2 original_prompt
    if r2.1 ≠ r1.1 then
      pure (false, [original_prompt, original_prompt])
    else do
      let (b, tr) ← verifyRowsAux predict prompt_column_name r2.2 rest
      pure (b, original_prompt :: original_prompt :: tr)

/-- `verify_model_determinism` from `eval_algorithms/util.py`: runs the
check over `dataset.limit(NUM_ROWS_DETERMINISTIC)`. -/
def verify_model_determinism {σ α : Type} [DecidableEq α]
    (predict : σ → String → α × σ) (dataset : List (List (String × String)))
    (prompt_column_name : String) (s : σ) : Option (Bool × List String) :=
  verifyRowsAux predict prompt_column_name s
    (dataset.take NUM_ROWS_DETERMINISTIC)

/-- Spec-side predicate: every prompt in the list, fed twice to the
(state-threaded) model, yields the same output both times. -/
def detAll {σ α : Type} [DecidableEq α] (predict : σ → String → α × σ) :
    σ → List String → Bool
  | _, [] => true
  | s, p :: ps =>
    let r1 := predict s p
    let r2 := predict r1.2 p
    if r2.1 = r1.1 then detAll predict r2.2 ps else false

/-- Spec-side count: how many prompts get examined before the check
stops (all of them, or up to and including the first failing one). -/
def detCount {σ α : Type} [DecidableEq α] (predict : σ → String → α × σ) :
    σ → List String → Nat
  | _, [] => 0
  | s, p :: ps =>
    let r1 := predict s p
    let r2 := predict r1.2 p
    if r2.1 = r1.1 then detCount predict r2.2 ps + 1 else 1

/-- `os.path.basename` (POSIX): everything after the last slash. -/
def basenameL (p : List Char) : List Char :=
  (p.reverse.takeWhile (fun c => c ≠ '/')).reverse

/-- `os.path.dirname` (POSIX): everything up to and including the last
slash (the `head`), with trailing slashes stripped unless `head` is
empty or all slashes. -/
def dirnameL (p : List Char) : List Char :=
  if ((p.reverse.dropWhile (fun c => c ≠ '/')).reverse).isEmpty
      ∨ ((p.reverse.dropWhile (fun c => c ≠ '/')).reverse).all (fun c => c = '/') then
    (p.reverse.dropWhile (fun c => c ≠ '/')).reverse
  else
    (((p.reverse.dropWhile (fun c => c ≠ '/')).reverse).reverse.dropWhile
      (fun c => c = '/')).reverse

/-- `os.path.splitext(b)[0]` for a base name `b` (no slashes): cut at
the last dot, unless everything before that dot is dots. -/
def splitextStem (b : List Char) : List Char :=
  if (b.reverse.takeWhile (fun c => c ≠ '.')).length = b.length then b
  else if (b.reverse.drop
      ((b.reverse.takeWhile (fun c => c ≠ '.')).length + 1)).any (fun c => c ≠ '.') then
    (b.reverse.drop ((b.reverse.takeWhile (fun c => c ≠ '.')).length + 1)).reverse
  else b

/-- The output path computed by `save_dataset` in
`eval_algorithms/util.py`:
`f"{os.path.dirname(path)}/{os.path.splitext(os.path.basename(path))[0]}.jsonl"`. -/
def savePathL (p : List Char) : List Char :=
  dirnameL p ++ '/' :: (splitextStem (basenameL p) ++ ".jsonl".data)

/-- `"\n".join(records)`: records joined by newline characters. -/
def joinNL : List (List Char) → List Char
  | [] => []
  | [r] => r
  | r :: r2 :: rs => r ++ '\n' :: joinNL (r2 :: rs)

/-- The write loop of `save_dataset` in `eval_algorithms/util.py`,
parameterized by the batch size `B`
(`constants.EVAL_OUTPUT_RECORDS_BATCH_SIZE`; `fmeval/constants.py` is
not among the sources, and the claim quantifies over every batch size):
accumulate serialized records into a buffer; whenever the buffer
reaches `B` entries, write them newline-joined plus a trailing newline
and clear the buffer; after the loop, write any remaining buffered
records newline-joined (no trailing newline). -/
def saveLinesGo (B : Nat) :
    List (List Char) → List (List Char) → List Char → List Char
  | [], buf, out => if buf.isEmpty then out else out ++ joinNL buf
  | r :: rest, buf, out =>
    if (buf ++ [r]).length = B then
      saveLinesGo B rest [] (out ++ joinNL (buf ++ [r]) ++ ['\n'])
    else
      saveLinesGo B rest (buf ++ [r]) out

/-- The bytes `save_dataset` writes for the given serialized records. -/
def saveLines (B : Nat) (records : List (List Char)) : List Char :=
  saveLinesGo B records [] []

/-- `constants.MEAN`, the name of the only supported aggregation
method. -/
def MEAN : String := "mean"

/-- One row of a scored dataset, as far as aggregation is concerned:
a category value and the numeric score columns. -/
structure AggRow where
  category : String
  score : String → ℚ

/-- A scored dataset: its rows, and whether the category column exists
in its schema. -/
structure AggDataset where
  hasCategory : Bool
  rows : List AggRow

/-- Modelled from the spec: the dataset engine's `Dataset.mean(column)`
(external interface, spec section 6): the arithmetic mean of the column
over all rows; on an empty dataset the engine yields no number (the
source then fails its `assert isinstance(aggregate, float)`). -/
def dsMean (ds : AggDataset) (col : String) : Option ℚ :=
  if ds.rows.isEmpty then none
  else some ((ds.rows.map fun r => r.score col).sum / ds.rows.length)

/-- Modelled from the spec: the dataset engine's `Dataset.unique(column)`
applied to the category column: the distinct category values. -/
def dsUnique (ds : AggDataset) : List String :=
  (ds.rows.map fun r => r.category).dedup

/-- The per-category mean of a score column. -/
def catMean (ds : AggDataset) (c col : String) : ℚ :=
  ((ds.rows.filter fun r => decide (r.category = c)).map fun r => r.score col).sum
    / (ds.rows.filter fun r => decide (r.category = c)).length

/-- Modelled from the spec: the dataset engine's
`groupby(category).mean(column)` (external interface, spec section 6):
one row per distinct category value, carrying the per-category mean. -/
def groupbyMean (ds : AggDataset) (col : String) : List (String × ℚ) :=
  (dsUnique ds).map fun c => (c, catMean ds c col)

/-- `dataset_aggregation` from `eval_algorithms/util.py`: only the mean
method is supported (any other method raises an internal error, and an
empty dataset fails the `assert`). -/
def dataset_aggregation (ds : AggDataset) (score_column_name : String)
    (agg_method : String) : Option ℚ :=
  if agg_method = MEAN then dsMean ds score_column_name else none

/-- `category_wise_aggregation` from `eval_algorithms/util.py`. -/
def category_wise_aggregation (ds : AggDataset) (score_column_name : String)
    (agg_method : String) : Option (List (String × ℚ)) :=
  if agg_method = MEAN then some (groupbyMean ds score_column_name) else none

/-- `category_scores[name].scores.append(eval_score)`: append a score to
the entry of the given category in the ordered dict of category
scores. -/
def updateCat (cats : List (String × List EvalScore)) (c : String) (s : EvalScore) :
    List (String × List EvalScore) :=
  cats.map fun p => if p.1 = c then (p.1, p.2 ++ [s]) else p

/-- The nested loop of `aggregate_evaluation_scores`: for each score
column, aggregate per category and append each category's mean to its
`CategoryScore`-in-progress. -/
def aggCatLoop (ds : AggDataset) (agg_method : String) :
    List String → List (String × List EvalScore) →
      Option (List (String × List EvalScore))
  | [], cats => some cats
  | score_column_name :: rest, cats => do
    let category_aggregate ← category_wise_aggregation ds score_column_name agg_method
    aggCatLoop ds agg_method rest
      (category_aggregate.foldl
        (fun cs rp => updateCat cs rp.1 ⟨score_column_name, rp.2⟩) cats)

/-- `aggregate_evaluation_scores` from `eval_algorithms/util.py`. -/
def aggregate_evaluation_scores (ds : AggDataset) (score_column_names : List String)
    (agg_method : String) :
    Option (List EvalScore × Option (List CategoryScore)) := do
  let dataset_scores ← score_column_names.mapM fun score_column_name =>
    (dataset_aggregation ds score_column_name agg_method).map fun v =>
      EvalScore.mk score_column_name v
  if ds.hasCategory then
    let final ← aggCatLoop ds agg_method score_column_names
      ((dsUnique ds).map fun name => (name, []))
    pure (dataset_scores, some (final.map fun p => ⟨p.1, p.2⟩))
  else
    pure (dataset_scores, none)

/-! ## Helper lemmas -/

theorem lookup_cons_eq_if {β : Type} (a k : String) (v : β) (l : List (String × β)) :
    List.lookup a ((k, v) :: l) = if a = k then some v else List.lookup a l := by
  rw [List.lookup_cons]
  by_cases h : a = k
  · simp [h]
  · have hb : (a == k) = false := beq_eq_false_iff_ne.mpr h
    simp [hb, h]

theorem lookup_eq_of_perm {β : Type} {l₁ l₂ : List (String × β)} (h : l₁.Perm l₂)
    (hn : (l₁.map Prod.fst).Nodup) (a : String) : l₁.lookup a = l₂.lookup a := by
  induction h with
  | nil => rfl
  | cons x h ih =>
    simp only [List.map_cons, List.nodup_cons] at hn
    obtain ⟨k, v⟩ := x
    by_cases hk : a = k <;> simp [lookup_cons_eq_if, hk, ih hn.2]
  | swap x y l =>
    obtain ⟨k₁, v₁⟩ := x
    obtain ⟨k₂, v₂⟩ := y
    simp only [List.map_cons, List.nodup_cons, List.mem_cons, not_or] at hn
    have hne : k₂ ≠ k₁ := hn.1.1
    rw [lookup_cons_eq_if, lookup_cons_eq_if, lookup_cons_eq_if, lookup_cons_eq_if]
    by_cases h1 : a = k₂ <;> by_cases h2 : a = k₁
    · exact absurd (h1 ▸ h2) hne
    · simp [h1, h2, hne]
    · have hne2 : k₁ ≠ k₂ := fun h => hne h.symm
      simp [h1, h2, hne2]
    · simp [h1, h2]
  | trans h₁ h₂ ih₁ ih₂ =>
    refine (ih₁ hn).trans (ih₂ ?_)
    exact ((h₁.map Prod.fst).nodup_iff).mp hn

theorem keys_of_filterMap_lookup (L : List String) (f : String → Option PyVal) :
    (L.filterMap fun c => (f c).map fun v => (c, JVal.prim v)).map Prod.fst
      = L.filter fun c => (f c).isSome := by
  induction L with
  | nil => rfl
  | cons c L ih =>
    cases hf : f c <;> simp [List.filterMap_cons, List.filter_cons, hf, ih]

theorem lookup_map_replace_self {α : Type} (record : List (String × α)) (k : String)
    (v : α) (hc : (record.map Prod.fst).contains k = true) :
    (record.map fun kv => if kv.1 = k then (k, v) else kv).lookup k = some v := by
  induction record with
  | nil => simp at hc
  | cons kv rest ih =>
    obtain ⟨k0, v0⟩ := kv
    by_cases hk : k0 = k
    · simp [hk, lookup_cons_eq_if]
    · simp only [List.map_cons, List.contains_cons] at hc
      have hc2 : (rest.map Prod.fst).contains k = true := by
        rcases (Bool.or_eq_true _ _).mp hc with h | h
        · exact absurd (beq_iff_eq.mp h).symm hk
        · exact h
      simp only [List.map_cons]
      rw [if_neg (by simpa using hk), lookup_cons_eq_if,
        if_neg (fun h => hk h.symm)]
      exact ih hc2

theorem lookup_map_replace_ne {α : Type} (record : List (String × α)) (k k' : String)
    (v : α) (h : k' ≠ k) :
    (record.map fun kv => if kv.1 = k then (k, v) else kv).lookup k'
      = record.lookup k' := by
  induction record with
  | nil => rfl
  | cons kv rest ih =>
    obtain ⟨k0, v0⟩ := kv
    by_cases hk : k0 = k
    · subst hk
      simp [lookup_cons_eq_if, h, ih]
    · simp only [List.map_cons]
      rw [if_neg (by simpa using hk), lookup_cons_eq_if, lookup_cons_eq_if]
      by_cases hk' : k' = k0 <;> simp [hk', ih]

theorem lookup_append_single_self {α : Type} (record : List (String × α)) (k : String)
    (v : α) (hc : (record.map Prod.fst).contains k = false) :
    (record ++ [(k, v)]).lookup k = some v := by
  induction record with
  | nil => simp [lookup_cons_eq_if]
  | cons kv rest ih =>
    obtain ⟨k0, v0⟩ := kv
    simp only [List.map_cons, List.contains_cons, Bool.or_eq_false_iff] at hc
    rw [List.cons_append, lookup_cons_eq_if, if_neg, ih hc.2]
    intro h
    rw [h] at hc
    simp at hc

theorem lookup_append_single_ne {α : Type} (record : List (String × α)) (k k' : String)
    (v : α) (h : k' ≠ k) :
    (record ++ [(k, v)]).lookup k' = record.lookup k' := by
  induction record with
  | nil => simp [lookup_cons_eq_if, h]
  | cons kv rest ih =>
    obtain ⟨k0, v0⟩ := kv
    rw [List.cons_append, lookup_cons_eq_if, lookup_cons_eq_if]
    by_cases hk' : k' = k0 <;> simp [hk', ih]

theorem lookup_setKey_self {α : Type} (record : List (String × α)) (k : String) (v : α) :
    (setKey record k v).lookup k = some v := by
  unfold setKey
  by_cases hc : (record.map Prod.fst).contains k
  · rw [if_pos hc]
    exact lookup_map_replace_self record k v hc
  · rw [if_neg hc]
    exact lookup_append_single_self record k v (by simpa using hc)

theorem lookup_setKey_ne {α : Type} (record : List (String × α)) (k k' : String)
    (v : α) (h : k' ≠ k) : (setKey record k v).lookup k' = record.lookup k' := by
  unfold setKey
  by_cases hc : (record.map Prod.fst).contains k
  · rw [if_pos hc]
    exact lookup_map_replace_ne record k k' v h
  · rw [if_neg hc]
    exact lookup_append_single_ne record k k' v h

theorem mapM_lookup_eq {α : Type} [Inhabited α] (keys : List String)
    (record : List (String × α)) (h : ∀ k ∈ keys, (record.lookup k).isSome) :
    keys.mapM record.lookup
      = some (keys.map fun k => (record.lookup k).getD default) := by
  induction keys with
  | nil => rfl
  | cons k keys ih =>
    have hk : (record.lookup k).isSome := h k (List.mem_cons_self _ _)
    obtain ⟨v, hv⟩ := Option.isSome_iff_exists.mp hk
    rw [List.mapM_cons, hv, ih (fun k2 hk2 => h k2 (List.mem_cons_of_mem _ hk2))]
    simp [hv]

theorem takeWhile_append_cons {α : Type} (q : α → Bool) (l₁ l₂ : List α) (c : α)
    (h₁ : ∀ a ∈ l₁, q a = true) (hc : q c = false) :
    (l₁ ++ c :: l₂).takeWhile q = l₁ := by
  induction l₁ with
  | nil => simp [List.takeWhile_cons, hc]
  | cons a l ih =>
    rw [List.cons_append, List.takeWhile_cons, h₁ a (List.mem_cons_self _ _),
      ih (fun a ha => h₁ a (List.mem_cons_of_mem _ ha))]
    simp

theorem dropWhile_append_cons {α : Type} (q : α → Bool) (l₁ l₂ : List α) (c : α)
    (h₁ : ∀ a ∈ l₁, q a = true) (hc : q c = false) :
    (l₁ ++ c :: l₂).dropWhile q = c :: l₂ := by
  induction l₁ with
  | nil => simp [List.dropWhile_cons, hc]
  | cons a l ih =>
    rw [List.cons_append, List.dropWhile_cons_of_pos (h₁ a (List.mem_cons_self _ _)),
      ih (fun a ha => h₁ a (List.mem_cons_of_mem _ ha))]

theorem mem_basenameL_ne_slash (p : List Char) : ∀ c ∈ basenameL p, c ≠ '/' := by
  intro c hc
  rw [basenameL, List.mem_reverse] at hc
  have := List.mem_takeWhile_imp hc
  simpa using this

theorem mem_splitextStem (b : List Char) : ∀ c ∈ splitextStem b, c ∈ b := by
  intro c hc
  rw [splitextStem] at hc
  split at hc
  · exact hc
  · split at hc
    · rw [List.mem_reverse] at hc
      exact List.mem_reverse.mp (List.mem_of_mem_drop hc)
    · exact hc

theorem reverse_eq_getLast_cons {α : Type} (d : List α) (h : d ≠ []) :
    d.reverse = d.getLast h :: d.dropLast.reverse := by
  conv_lhs => rw [← List.dropLast_append_getLast h]
  rw [List.reverse_append, List.reverse_singleton, List.singleton_append]

theorem joinNL_append (l₁ l₂ : List (List Char)) (h₁ : l₁ ≠ []) (h₂ : l₂ ≠ []) :
    joinNL (l₁ ++ l₂) = joinNL l₁ ++ '\n' :: joinNL l₂ := by
  induction l₁ with
  | nil => exact absurd rfl h₁
  | cons r l ih =>
    cases l with
    | nil =>
      cases l₂ with
      | nil => exact absurd rfl h₂
      | cons b bs => simp [joinNL]
    | cons r2 l' =>
      have hih := ih (by simp)
      calc joinNL ((r :: r2 :: l') ++ l₂)
          = r ++ '\n' :: joinNL ((r2 :: l') ++ l₂) := rfl
        _ = r ++ '\n' :: (joinNL (r2 :: l') ++ '\n' :: joinNL l₂) := by rw [hih]
        _ = joinNL (r :: r2 :: l') ++ '\n' :: joinNL l₂ := by
            simp [joinNL]

theorem saveLinesGo_spec (B : Nat) (hB : 0 < B) :
    ∀ (rows buf : List (List Char)) (out : List Char), buf.length < B →
      saveLinesGo B rows buf out = out ++
        (if buf ++ rows = [] then []
         else joinNL (buf ++ rows) ++
           (if (buf.length + rows.length) % B = 0 then ['\n'] else [])) := by
  intro rows
  induction rows with
  | nil =>
    intro buf out hbuf
    rw [saveLinesGo]
    by_cases hb : buf = []
    · subst hb
      simp
    · rw [if_neg (by simpa using hb), List.append_nil, if_neg hb,
        List.length_nil, Nat.add_zero, Nat.mod_eq_of_lt hbuf,
        if_neg (fun h => hb (List.length_eq_zero.mp h)), List.append_nil]
  | cons r rest ih =>
    intro buf out hbuf
    rw [saveLinesGo]
    have hne1 : buf ++ r :: rest ≠ [] := by simp
    by_cases hfull : (buf ++ [r]).length = B
    · rw [if_pos hfull, ih [] (out ++ joinNL (buf ++ [r]) ++ ['\n']) hB,
        if_neg hne1]
      have hBval : buf.length + 1 = B := by simpa using hfull
      simp only [List.nil_append, List.length_nil, Nat.zero_add]
      by_cases hrest : rest = []
      · subst hrest
        rw [if_pos rfl, List.append_nil]
        have hmod : (buf.length + (0 + 1)) % B = 0 := by
          rw [Nat.zero_add, hBval, Nat.mod_self]
        rw [List.length_cons, List.length_nil, hmod, if_pos rfl]
        simp [List.append_assoc]
      · rw [if_neg hrest]
        have hjoin : joinNL (buf ++ r :: rest)
            = joinNL (buf ++ [r]) ++ '\n' :: joinNL rest := by
          have : buf ++ r :: rest = (buf ++ [r]) ++ rest := by simp
          rw [this, joinNL_append (buf ++ [r]) rest (by simp) hrest]
        have hmod : (buf.length + (rest.length + 1)) % B = rest.length % B := by
          have : buf.length + (rest.length + 1) = B + rest.length := by omega
          rw [this, Nat.add_mod_left]
        rw [List.length_cons, hmod, hjoin]
        by_cases hm : rest.length % B = 0
        · rw [if_pos hm]
          simp [List.append_assoc]
        · rw [if_neg hm]
          simp [List.append_assoc]
    · rw [if_neg hfull]
      have hlt : (buf ++ [r]).length < B := by
        have : (buf ++ [r]).length = buf.length + 1 := by simp
        omega
      rw [ih (buf ++ [r]) out hlt]
      have hassoc : (buf ++ [r]) ++ rest = buf ++ r :: rest := by simp
      have hlen : (buf ++ [r]).length + rest.length
          = buf.length + (rest.length + 1) := by
        simp
        omega
      rw [hassoc, hlen, List.length_cons]

theorem updateCat_map (uniq : List String) (g : String → List EvalScore)
    (c' : String) (s : EvalScore) :
    updateCat (uniq.map fun c => (c, g c)) c' s
      = uniq.map fun c => (c, if c = c' then g c ++ [s] else g c) := by
  rw [updateCat, List.map_map]
  apply List.map_congr_left
  intro c _
  by_cases hc : c = c' <;> simp [hc]

theorem foldl_updateCat (col : String) (ups : List (String × ℚ)) :
    ∀ (uniq : List String) (g : String → List EvalScore),
    ups.foldl (fun cs rp => updateCat cs rp.1 ⟨col, rp.2⟩)
        (uniq.map fun c => (c, g c))
      = uniq.map fun c =>
          (c, g c ++ (ups.filter fun rp => decide (rp.1 = c)).map
            fun rp => EvalScore.mk col rp.2) := by
  induction ups with
  | nil =>
    intro uniq g
    simp
  | cons rp ups ih =>
    intro uniq g
    rw [List.foldl_cons, updateCat_map uniq g rp.1 (EvalScore.mk col rp.2),
      ih uniq (fun c => if c = rp.1 then g c ++ [EvalScore.mk col rp.2] else g c)]
    apply List.map_congr_left
    intro c _
    by_cases hc : c = rp.1
    · have hd : decide (rp.1 = c) = true := by simp [hc]
      simp [hc, List.filter_cons, hd, List.append_assoc]
    · have hd : decide (rp.1 = c) = false := by
        simp
        exact fun h => hc h.symm
      simp [hc, List.filter_cons, hd]

theorem filter_map_key_nodup (f : String → ℚ) :
    ∀ (uniq : List String), uniq.Nodup → ∀ c ∈ uniq,
      ((uniq.map fun d => (d, f d)).filter fun rp => decide (rp.1 = c))
        = [(c, f c)] := by
  intro uniq
  induction uniq with
  | nil =>
    intro _ c hc
    cases hc
  | cons a l ih =>
    intro hnd c hc
    rw [List.map_cons, List.filter_cons]
    rcases List.mem_cons.mp hc with rfl | hc2
    · rw [if_pos (by simp)]
      have hrest : ((l.map fun d => (d, f d)).filter
          fun rp => decide (rp.1 = c)) = [] := by
        rw [List.filter_eq_nil_iff]
        intro rp hrp
        obtain ⟨d, hd, rfl⟩ := List.mem_map.mp hrp
        have : d ≠ c := fun h => (List.nodup_cons.mp hnd).1 (h ▸ hd)
        simpa using this
      rw [hrest]
    · have hne : a ≠ c := fun h =>
        (List.nodup_cons.mp hnd).1 (h ▸ hc2)
      rw [if_neg (by simpa using hne)]
      exact ih (List.nodup_cons.mp hnd).2 c hc2

theorem aggCatLoop_spec (ds : AggDataset) (cols : List String) :
    ∀ (g : String → List EvalScore),
    aggCatLoop ds MEAN cols ((dsUnique ds).map fun c => (c, g c))
      = some ((dsUnique ds).map fun c =>
          (c, g c ++ cols.map fun col => EvalScore.mk col (catMean ds c col))) := by
  induction cols with
  | nil =>
    intro g
    simp [aggCatLoop]
  | cons col rest ih =>
    intro g
    rw [aggCatLoop, category_wise_aggregation, if_pos rfl, Option.bind_eq_bind,
      Option.some_bind, groupbyMean,
      foldl_updateCat col ((dsUnique ds).map fun c => (c, catMean ds c col))
        (dsUnique ds) g]
    have hstep : ((dsUnique ds).map fun c =>
        (c, g c ++ (((dsUnique ds).map fun d => (d, catMean ds d col)).filter
          fun rp => decide (rp.1 = c)).map fun rp => EvalScore.mk col rp.2))
        = (dsUnique ds).map fun c =>
          (c, (g c ++ [EvalScore.mk col (catMean ds c col)])) := by
      apply List.map_congr_left
      intro c hc
      rw [filter_map_key_nodup (fun d => catMean ds d col) (dsUnique ds)
        (List.nodup_dedup _) c hc]
      rfl
    rw [hstep, ih (fun c => g c ++ [EvalScore.mk col (catMean ds c col)])]
    congr 1
    apply List.map_congr_left
    intro c _
    rw [List.map_cons, List.append_assoc]
    rfl

/-! ## Claim theorems -/

/-- C1: `EvalOutputRecord.from_row` partitions the row's keys: every key
in `score_names` becomes an `EvalScore` entry, in row iteration order;
every other key is kept as a `dataset_columns` entry exactly when it is
in the `DATASET_COLUMNS` allow-list; no other key appears anywhere in
the produced record (the equation below characterizes the record
completely). -/
theorem from_row_partition (row : List (String × PyVal)) (score_names : List String)
    (hnum : ∀ kv ∈ row, kv.1 ∈ score_names → (PyVal.asNum kv.2).isSome) :
    EvalOutputRecord.from_row row score_names =
      some ⟨(row.filter (fun kv => decide (kv.1 ∈ score_names))).map
              (fun kv => ⟨kv.1, (PyVal.asNum kv.2).getD 0⟩),
            row.filter
              (fun kv => decide (kv.1 ∉ score_names ∧ kv.1 ∈ DATASET_COLUMNS))⟩ := by
  rw [EvalOutputRecord.from_row]
  suffices h : fromRowAux score_names row =
      some (row.filter (fun kv => decide (kv.1 ∉ score_names ∧ kv.1 ∈ DATASET_COLUMNS)),
            (row.filter (fun kv => decide (kv.1 ∈ score_names))).map
              (fun kv => ⟨kv.1, (PyVal.asNum kv.2).getD 0⟩)) by
    rw [h]
    rfl
  induction row with
  | nil => rfl
  | cons kv rest ih =>
    obtain ⟨k, v⟩ := kv
    have hrest := ih (fun kv hm hs => hnum kv (List.mem_cons_of_mem _ hm) hs)
    rw [fromRowAux, hrest]
    by_cases hk : k ∈ score_names
    · have hv : (PyVal.asNum v).isSome := hnum (k, v) (List.mem_cons_self _ _) hk
      obtain ⟨q, hq⟩ := Option.isSome_iff_exists.mp hv
      simp [hk, hq, List.filter]
    · by_cases hd : k ∈ DATASET_COLUMNS <;> simp [hk, hd, List.filter]

/-- C1 witness: the spec's example row, with `"aux"` unrecognized. -/
theorem from_row_partition_witness :
    EvalOutputRecord.from_row
      [("model_input", .s "hello"), ("aux", .f (189/1000)),
       ("rouge", .f (1/2)), ("bert_score", .f (21/50))]
      ["rouge", "bert_score"]
    = some ⟨[⟨"rouge", 1/2⟩, ⟨"bert_score", 21/50⟩],
            [("model_input", .s "hello")]⟩ :=
  (from_row_partition
    [("model_input", .s "hello"), ("aux", .f (189/1000)),
     ("rouge", .f (1/2)), ("bert_score", .f (21/50))]
    ["rouge", "bert_score"] (by decide)).trans (by rfl)

/-- C2: with the mean method, `aggregate_evaluation_scores` on a
non-empty dataset returns one `EvalScore` per score column (the
column's arithmetic mean over all rows) in `score_column_names` order,
and, when the category column exists, one `CategoryScore` per distinct
category value whose scores are the per-category means, in the same
column order. -/
theorem aggregate_evaluation_scores_mean (ds : AggDataset)
    (score_column_names : List String) (h : ds.rows ≠ []) :
    aggregate_evaluation_scores ds score_column_names MEAN =
      some
        (score_column_names.map fun c =>
          ⟨c, (ds.rows.map fun r => r.score c).sum / ds.rows.length⟩,
         if ds.hasCategory then
           some ((dsUnique ds).map fun cv =>
             CategoryScore.mk cv
               (score_column_names.map fun c => ⟨c, catMean ds cv c⟩))
         else none) := by
  have hagg : ∀ c, dataset_aggregation ds c MEAN
      = some ((ds.rows.map fun r => r.score c).sum / ds.rows.length) := by
    intro c
    rw [dataset_aggregation, if_pos rfl, dsMean, if_neg (by simpa using h)]
  have hmapM : score_column_names.mapM (fun score_column_name =>
      (dataset_aggregation ds score_column_name MEAN).map fun v =>
        EvalScore.mk score_column_name v)
      = some (score_column_names.map fun c =>
          ⟨c, (ds.rows.map fun r => r.score c).sum / ds.rows.length⟩) := by
    induction score_column_names with
    | nil => rfl
    | cons c cs ih =>
      rw [List.mapM_cons, hagg c]
      simp only [Option.map_some']
      rw [ih]
      rfl
  rw [aggregate_evaluation_scores, hmapM, Option.bind_eq_bind, Option.some_bind]
  by_cases hcat : ds.hasCategory
  · rw [if_pos hcat, if_pos hcat, aggCatLoop_spec ds score_column_names (fun _ => []),
      Option.bind_eq_bind, Option.some_bind, List.map_map]
    have hmc : List.map ((fun p : String × List EvalScore => CategoryScore.mk p.1 p.2) ∘
        (fun c => (c, [] ++ List.map (fun col => EvalScore.mk col (catMean ds c col))
          score_column_names))) (dsUnique ds)
        = List.map (fun cv => CategoryScore.mk cv
            (List.map (fun c => EvalScore.mk c (catMean ds cv c)) score_column_names))
          (dsUnique ds) := by
      apply List.map_congr_left
      intro c _
      rfl
    rw [hmc]
    rfl
  · rw [if_neg hcat, if_neg hcat]
    rfl

/-- C2 witness: a two-row dataset with categories `"x"`, `"y"` and score
column `"s"`. -/
theorem aggregate_evaluation_scores_mean_witness :
    aggregate_evaluation_scores
        ⟨true, [⟨"x", fun col => if col = "s" then 1 else 0⟩,
                ⟨"y", fun col => if col = "s" then 3 else 0⟩]⟩
        ["s"] MEAN
      = some ([⟨"s", 2⟩],
          some [⟨"x", [⟨"s", 1⟩]⟩, ⟨"y", [⟨"s", 3⟩]⟩]) := by
  rw [aggregate_evaluation_scores_mean _ _ (by simp)]
  have hdu : dsUnique ⟨true, [⟨"x", fun col => if col = "s" then 1 else 0⟩,
      ⟨"y", fun col => if col = "s" then 3 else 0⟩]⟩ = ["x", "y"] := by decide
  rw [hdu]
  simp +decide [catMean, List.filter]
  norm_num

/-- C3: the serialized object lists the recognized non-score columns
first, in `DATASET_COLUMNS` order, independently of the order in which
`dataset_columns` was populated; keys outside the allow-list never
appear; and `"scores"` is always present and last. -/
theorem to_dict_canonical (r : EvalOutputRecord) :
    ((r.toDict.map Prod.fst)
        = (DATASET_COLUMNS.filter fun c => (r.dataset_columns.lookup c).isSome)
          ++ ["scores"])
    ∧ (∀ k ∈ r.toDict.map Prod.fst, k = "scores" ∨ k ∈ DATASET_COLUMNS)
    ∧ (r.toDict.getLast? = some ("scores", JVal.arr r.scores))
    ∧ (∀ r₂ : EvalOutputRecord, r₂.scores = r.scores →
        r₂.dataset_columns.Perm r.dataset_columns →
        (r₂.dataset_columns.map Prod.fst).Nodup →
        r₂.toDict = r.toDict) := by
  have hkeys : (r.toDict.map Prod.fst)
      = (DATASET_COLUMNS.filter fun c => (r.dataset_columns.lookup c).isSome)
        ++ ["scores"] := by
    unfold EvalOutputRecord.toDict
    rw [List.map_append, keys_of_filterMap_lookup]
    rfl
  refine ⟨hkeys, ?_, ?_, ?_⟩
  · intro k hk
    rw [hkeys, List.mem_append] at hk
    rcases hk with hk | hk
    · exact Or.inr (List.mem_of_mem_filter hk)
    · simp at hk
      exact Or.inl hk
  · exact List.getLast?_concat _
  · intro r₂ hs hperm hnodup
    unfold EvalOutputRecord.toDict
    rw [hs]
    congr 1
    refine List.filterMap_congr fun c _ => ?_
    rw [lookup_eq_of_perm hperm hnodup c]

/-- C3 witness: two records whose `dataset_columns` were populated in
opposite orders serialize identically. -/
theorem to_dict_canonical_witness :
    EvalOutputRecord.toDict
        ⟨[⟨"rouge", 1/2⟩], [("prompt", PyVal.s "p"), ("model_input", PyVal.s "hi")]⟩
      = EvalOutputRecord.toDict
        ⟨[⟨"rouge", 1/2⟩], [("model_input", PyVal.s "hi"), ("prompt", PyVal.s "p")]⟩ :=
  (to_dict_canonical
    ⟨[⟨"rouge", 1/2⟩], [("model_input", PyVal.s "hi"), ("prompt", PyVal.s "p")]⟩).2.2.2
    ⟨[⟨"rouge", 1/2⟩], [("prompt", PyVal.s "p"), ("model_input", PyVal.s "hi")]⟩
    rfl
    (List.Perm.swap ("model_input", PyVal.s "hi") ("prompt", PyVal.s "p") [])
    (by decide)

/-- C4: `WER.__init__` fails with `ConfigError` exactly when the two
key lists have different lengths, with a message stating both lengths;
for lengths 2 and 3 the message is the exact text from the spec; and
equal-length construction succeeds. -/
theorem wer_init_length_validation :
    (∀ (p r : List String) (o : String), p.length ≠ r.length →
      WER.init p r o = Except.error (werLengthMessage p.length r.length))
    ∧ (WER.init ["p1", "p2"] ["r1", "r2", "r3"] "wer" = Except.error
        ("prediction_keys and reference_keys should have the same number of elements."
          ++ " prediction_keys has 2 elements while reference_keys has 3 elements."))
    ∧ (∀ (p r : List String) (o : String), p.length = r.length →
      WER.init p r o = Except.ok ⟨p, r, o⟩) := by
  refine ⟨?_, by rfl, ?_⟩
  · intro p r o h
    simp [WER.init, require, h]
  · intro p r o h
    simp [WER.init, require, h]

/-- C4 witness: a concrete mismatched construction fails with the
length-bearing message. -/
theorem wer_init_length_validation_witness :
    WER.init ["a"] [] "out" = Except.error (werLengthMessage 1 0) :=
  wer_init_length_validation.1 ["a"] [] "out" (by decide)

/-- C5: `WER.__call__` invokes the external metric exactly once, with
the prediction values in `prediction_keys` order and the reference
values in `reference_keys` order (so the kth prediction is paired with
the kth reference), stores the returned scalar verbatim under the
output key, and leaves every other key unchanged. -/
theorem wer_call_pairing {α : Type} [Inhabited α] (w : WERTransform)
    (compute : List α → List α → α) (record : List (String × α))
    (hp : ∀ k ∈ w.prediction_keys, (record.lookup k).isSome)
    (hr : ∀ k ∈ w.reference_keys, (record.lookup k).isSome) :
    ∃ out,
      WER.call w compute record = some (out,
        (w.prediction_keys.map fun k => (record.lookup k).getD default,
         w.reference_keys.map fun k => (record.lookup k).getD default))
      ∧ out = setKey record w.output_key
          (compute (w.prediction_keys.map fun k => (record.lookup k).getD default)
            (w.reference_keys.map fun k => (record.lookup k).getD default))
      ∧ out.lookup w.output_key = some
          (compute (w.prediction_keys.map fun k => (record.lookup k).getD default)
            (w.reference_keys.map fun k => (record.lookup k).getD default))
      ∧ ∀ k, k ≠ w.output_key → out.lookup k = record.lookup k := by
  refine ⟨_, ?_, rfl, ?_, ?_⟩
  · rw [WER.call, mapM_lookup_eq _ _ hp, Option.bind_eq_bind, Option.some_bind,
      mapM_lookup_eq _ _ hr]
    rfl
  · exact lookup_setKey_self _ _ _
  · intro k hk
    exact lookup_setKey_ne _ _ _ _ hk

/-- C5 witness: the unit test's record; the external metric receives
exactly `["a","b","c"]` and `["d","e","f"]`. -/
theorem wer_call_pairing_witness :
    ∃ out,
      WER.call ⟨["p1", "p2", "p3"], ["r1", "r2", "r3"], "wer"⟩
          (fun ps rs => String.join ps ++ "|" ++ String.join rs)
          [("p1", "a"), ("p2", "b"), ("p3", "c"),
           ("r1", "d"), ("r2", "e"), ("r3", "f")]
        = some (out, (["a", "b", "c"], ["d", "e", "f"]))
      ∧ out.lookup "wer" = some "abc|def" := by
  obtain ⟨out, h1, _, h3, _⟩ := wer_call_pairing (α := String)
    ⟨["p1", "p2", "p3"], ["r1", "r2", "r3"], "wer"⟩
    (fun ps rs => String.join ps ++ "|" ++ String.join rs)
    [("p1", "a"), ("p2", "b"), ("p3", "c"),
     ("r1", "d"), ("r2", "e"), ("r3", "f")]
    (by decide) (by decide)
  exact ⟨out, by simpa using h1, by simpa using h3⟩

/-- C6: `BertScoreDissimilarity.__call__` stores under the output key
the value 1 minus the arithmetic mean of the values at the BERTScore
keys; the formula is exact (no clamping), so out-of-range inputs
propagate. -/
theorem bertscore_dissimilarity_formula (bert_score_keys : List String)
    (output_key : String) (record : List (String × ℚ))
    (hne : bert_score_keys ≠ [])
    (hmem : ∀ k ∈ bert_score_keys, (record.lookup k).isSome) :
    ∃ out,
      BertScoreDissimilarity.call bert_score_keys output_key record = some out
      ∧ out.lookup output_key = some
          (1 - (bert_score_keys.map fun k => (record.lookup k).getD 0).sum
            / bert_score_keys.length) := by
  have hm : Mean.call bert_score_keys output_key record = some
      (setKey record output_key
        ((bert_score_keys.map fun k => (record.lookup k).getD 0).sum
          / bert_score_keys.length)) := by
    rw [Mean.call, if_neg (by simpa using hne), mapM_lookup_eq _ _ hmem]
    rfl
  refine ⟨setKey
      (setKey record output_key
        ((bert_score_keys.map fun k => (record.lookup k).getD 0).sum
          / bert_score_keys.length))
      output_key
      (1 - (bert_score_keys.map fun k => (record.lookup k).getD 0).sum
          / bert_score_keys.length), ?_, ?_⟩
  · rw [BertScoreDissimilarity.call, hm, Option.bind_eq_bind, Option.some_bind,
      lookup_setKey_self]
    rfl
  · exact lookup_setKey_self _ _ _

/-- C6 witness: the unit test's inputs `{a:0.1, b:0.2, c:0.3, d:0.4}`
give `1 - 0.25 = 0.75`. -/
theorem bertscore_dissimilarity_formula_witness :
    ∃ out,
      BertScoreDissimilarity.call ["a", "b", "c", "d"] "bsd"
          [("a", 1/10), ("b", 1/5), ("c", 3/10), ("d", 2/5)] = some out
      ∧ out.lookup "bsd" = some (3/4) := by
  obtain ⟨out, h1, h2⟩ := bertscore_dissimilarity_formula ["a", "b", "c", "d"] "bsd"
    [("a", 1/10), ("b", 1/5), ("c", 3/10), ("d", 2/5)]
    (by decide) (by decide)
  refine ⟨out, h1, ?_⟩
  rw [h2]
  simp +decide [lookup_cons_eq_if]
  norm_num

/-- C7: `verify_model_determinism` examines only the first
`NUM_ROWS_DETERMINISTIC` rows; the returned Boolean is true exactly
when every examined row's two model calls (same prompt both times)
agree, and the call trace contains each examined prompt exactly twice,
stopping right after the first failing row (no model call on any later
row). -/
theorem verify_model_determinism_spec {σ α : Type} [DecidableEq α]
    (predict : σ → String → α × σ) (dataset : List (List (String × String)))
    (prompt_column_name : String) (s : σ)
    (hp : ∀ row ∈ dataset.take NUM_ROWS_DETERMINISTIC,
      (row.lookup prompt_column_name).isSome) :
    verify_model_determinism predict dataset prompt_column_name s =
      some
        (detAll predict s
          ((dataset.take NUM_ROWS_DETERMINISTIC).map fun row =>
            (row.lookup prompt_column_name).getD ""),
         (((dataset.take NUM_ROWS_DETERMINISTIC).map fun row =>
            (row.lookup prompt_column_name).getD "").take
              (detCount predict s
                ((dataset.take NUM_ROWS_DETERMINISTIC).map fun row =>
                  (row.lookup prompt_column_name).getD ""))).flatMap
            fun p => [p, p]) := by
  rw [verify_model_determinism]
  generalize hrows : dataset.take NUM_ROWS_DETERMINISTIC = rows at hp ⊢
  clear hrows
  induction rows generalizing s with
  | nil => rfl
  | cons row rest ih =>
    have hrow : (row.lookup prompt_column_name).isSome :=
      hp row (List.mem_cons_self _ _)
    obtain ⟨p, hpv⟩ := Option.isSome_iff_exists.mp hrow
    have hrest := fun s2 => ih s2 (fun r hr => hp r (List.mem_cons_of_mem _ hr))
    rw [verifyRowsAux, hpv, Option.bind_eq_bind, Option.some_bind]
    simp only [List.map_cons, hpv, Option.getD_some]
    rw [detAll, detCount]
    by_cases heq : (predict (predict s p).2 p).1 = (predict s p).1
    · rw [if_neg (not_not_intro heq), if_pos heq, if_pos heq]
      rw [hrest ((predict (predict s p).2 p).2), Option.bind_eq_bind, Option.some_bind]
      rw [List.take_succ_cons, List.flatMap_cons]
      rfl
    · rw [if_pos heq, if_neg heq, if_neg heq]
      rw [List.take_succ_cons, List.take_zero, List.flatMap_cons, List.flatMap_nil]
      rfl

/-- C7 witness: a model whose output changes at its fourth call: the
first row passes, the second row fails, the third row is never
examined (its prompt is absent from the trace). -/
theorem verify_model_determinism_spec_witness :
    verify_model_determinism
        (fun (s : Nat) (_ : String) => (decide (s ≥ 3), s + 1))
        [[("prompt", "q0")], [("prompt", "q1")], [("prompt", "q2")]]
        "prompt" 0
      = some (false, ["q0", "q0", "q1", "q1"]) := by
  rw [verify_model_determinism_spec
    (fun (s : Nat) (_ : String) => (decide (s ≥ 3), s + 1))
    [[("prompt", "q0")], [("prompt", "q1")], [("prompt", "q2")]]
    "prompt" 0 (by decide)]
  rfl

/-- C8 counterexample: for the bare file name `"results.json"` the code
writes to `"/results.jsonl"` — the filesystem root, not the supplied
path's (current) directory — so the claim fails as stated for paths
with an empty directory part. -/
theorem save_dataset_path_counterexample :
    savePathL "results.json".data = "/results.jsonl".data
    ∧ "/results.jsonl".data ≠ "results.json".data
    ∧ dirnameL "/results.jsonl".data ≠ dirnameL "results.json".data := by
  refine ⟨by decide, by decide, by decide⟩

/-- C8 (amended): for every path whose directory part is nonempty and
does not end in a slash, the output location is the supplied path with
the file name's extension replaced by `.jsonl`: same directory, same
(extension-stripped) base name. -/
theorem save_dataset_path_spec (p : List Char)
    (h1 : dirnameL p ≠ [])
    (h2 : (dirnameL p).getLast? ≠ some '/') :
    dirnameL (savePathL p) = dirnameL p
    ∧ basenameL (savePathL p) = splitextStem (basenameL p) ++ ".jsonl".data := by
  have hm : ∀ c ∈ (splitextStem (basenameL p) ++ ".jsonl".data).reverse,
      (decide (c ≠ '/')) = true := by
    intro c hc
    rw [List.mem_reverse, List.mem_append] at hc
    rcases hc with hc | hc
    · simpa using mem_basenameL_ne_slash p c (mem_splitextStem _ c hc)
    · have hc2 : c ∈ ['.', 'j', 's', 'o', 'n', 'l'] := hc
      simp only [List.mem_cons, List.not_mem_nil, or_false] at hc2
      rcases hc2 with h | h | h | h | h | h <;> subst h <;> decide
  have hlast : (dirnameL p).getLast h1 ≠ '/' := by
    intro h
    exact h2 ((List.getLast?_eq_getLast _ h1).trans (congrArg some h))
  have hrev : (savePathL p).reverse
      = (splitextStem (basenameL p) ++ ".jsonl".data).reverse
        ++ '/' :: (dirnameL p).reverse := by
    rw [savePathL, List.reverse_append, List.reverse_cons, List.append_assoc,
      List.singleton_append]
  have hdrop : (savePathL p).reverse.dropWhile (fun c => decide (c ≠ '/'))
      = '/' :: (dirnameL p).reverse := by
    rw [hrev]
    exact dropWhile_append_cons _ _ _ _ hm (by decide)
  have htake : (savePathL p).reverse.takeWhile (fun c => decide (c ≠ '/'))
      = (splitextStem (basenameL p) ++ ".jsonl".data).reverse := by
    rw [hrev]
    exact takeWhile_append_cons _ _ _ _ hm (by decide)
  constructor
  · rw [dirnameL, hdrop]
    have hhead : ('/' :: (dirnameL p).reverse).reverse = dirnameL p ++ ['/'] := by
      rw [List.reverse_cons, List.reverse_reverse]
    rw [hhead, if_neg]
    · rw [List.reverse_append, List.reverse_singleton, List.singleton_append,
        List.dropWhile_cons_of_pos (by decide),
        reverse_eq_getLast_cons (dirnameL p) h1,
        List.dropWhile_cons_of_neg (by simpa using hlast),
        ← reverse_eq_getLast_cons (dirnameL p) h1, List.reverse_reverse]
    · rw [not_or]
      constructor
      · simp
      · intro hall
        have := List.all_eq_true.mp hall ((dirnameL p).getLast h1)
          (List.mem_append.mpr (Or.inl (List.getLast_mem h1)))
        exact hlast (by simpa using this)
  · rw [basenameL, htake, List.reverse_reverse]

/-- C8 witness: `"dir/results.json"` is written to
`"dir/results.jsonl"`. -/
theorem save_dataset_path_spec_witness :
    dirnameL (savePathL "dir/results.json".data) = dirnameL "dir/results.json".data
    ∧ basenameL (savePathL "dir/results.json".data)
        = splitextStem (basenameL "dir/results.json".data) ++ ".jsonl".data :=
  save_dataset_path_spec ("dir/results.json".data) (by decide) (by decide)

/-- C9 counterexample: two records written with batch size 2 end with a
trailing newline, but with batch size 3 they do not, so the bytes
written do depend on whether the record count is a multiple of the
batch size, contradicting the claim. -/
theorem save_dataset_batching_counterexample :
    saveLines 2 [['a'], ['b']] = "a\nb\n".data
    ∧ saveLines 3 [['a'], ['b']] = "a\nb".data
    ∧ saveLines 2 [['a'], ['b']] ≠ saveLines 3 [['a'], ['b']] := by
  refine ⟨by decide, by decide, by decide⟩

/-- C9 (amended): for every positive batch size, the file contents are
the records in order, newline-separated, plus a trailing newline
exactly when the record count is a nonzero multiple of the batch size —
that trailing newline is the only batching effect. -/
theorem save_dataset_batching (B : Nat) (records : List (List Char)) (hB : 0 < B) :
    saveLines B records =
      joinNL records ++
        (if records ≠ [] ∧ records.length % B = 0 then ['\n'] else []) := by
  rw [saveLines, saveLinesGo_spec B hB records [] [] (by simpa using hB)]
  simp only [List.nil_append, List.length_nil, Nat.zero_add]
  by_cases h : records = []
  · subst h
    simp [joinNL]
  · rw [if_neg h]
    by_cases hm : records.length % B = 0
    · rw [if_pos hm, if_pos ⟨h, hm⟩]
    · rw [if_neg hm, if_neg (fun hc => hm hc.2)]

/-- C9 witness: two records with batch size 3 (not a multiple) come out
newline-joined with no trailing newline. -/
theorem save_dataset_batching_witness :
    saveLines 3 [['a'], ['b']] = joinNL [['a'], ['b']] ++
      (if ([['a'], ['b']] : List (List Char)) ≠ []
          ∧ ([['a'], ['b']] : List (List Char)).length % 3 = 0 then ['\n'] else []) :=
  save_dataset_batching 3 [['a'], ['b']] (by decide)

/-- C10: `generate_mean_delta_score` returns the arithmetic mean of the
absolute score differences for a non-empty perturbed list, and fails
(division by zero) on the empty list. -/
theorem generate_mean_delta_score_mean_abs :
    (∀ (o : EvalScore) (ps : List EvalScore), ps ≠ [] →
      generate_mean_delta_score o ps = some
        ((ps.map fun r => |o.value - r.value|).sum / ps.length))
    ∧ (∀ o : EvalScore, generate_mean_delta_score o [] = none) := by
  constructor
  · intro o ps h
    rw [generate_mean_delta_score, if_neg (by simpa using h)]
  · intro o
    rfl

/-- C10 witness: original 0.5 against perturbed 0.25 and 1 gives mean
delta (0.25 + 0.5) / 2 = 0.375. -/
theorem generate_mean_delta_score_mean_abs_witness :
    generate_mean_delta_score ⟨"s", 1/2⟩ [⟨"p1", 1/4⟩, ⟨"p2", 1⟩] = some (3/8) := by
  rw [generate_mean_delta_score_mean_abs.1 ⟨"s", 1/2⟩ [⟨"p1", 1/4⟩, ⟨"p2", 1⟩]
    (by decide)]
  norm_num [abs_of_pos, abs_of_nonpos]

end Fmeval
